import Mathlib

/- Verification of the pico-train plots dashboard aggregation code
   (src/plots/code.js): continuation-log merging (`mergeContinuationLogs`),
   chart data assembly (`getChartData`, `getCombinedChartData`) and the
   run summary (`updateRunSummary`).

   JavaScript numbers are modelled by `JNum`: an exact rational for finite
   values plus the IEEE special values Infinity, -Infinity and NaN
   (negative zero is identified with zero; rounding of finite arithmetic
   is not modelled, all claims here are about which formula is computed
   and which control path is taken).

   `Array.prototype.sort` with the comparator `(a, b) => a.step - b.step`
   is a stable sort by step (guaranteed by ECMAScript 2019).  A stable
   sort for a total preorder is unique, so it is modelled by insertion
   sort (`sortByKey`), inserting each element before the first element
   with a greater-or-equal key. -/

namespace PlotsCode

/-- A JavaScript number: finite rational, Infinity, -Infinity or NaN. -/
inductive JNum where
  | num : ℚ → JNum
  | inf : JNum
  | neginf : JNum
  | nan : JNum
deriving DecidableEq

/-- JavaScript `Math.max` on two arguments: NaN if either argument is NaN,
    otherwise the larger value with the usual infinity ordering. -/
def jmax : JNum → JNum → JNum
  | .nan, _ => .nan
  | _, .nan => .nan
  | .inf, _ => .inf
  | _, .inf => .inf
  | .neginf, x => x
  | x, .neginf => x
  | .num a, .num b => .num (max a b)

/-- JavaScript `Math.max(...l)`; `Math.max()` of no arguments is -Infinity. -/
def jmaxList (l : List JNum) : JNum := l.foldl jmax .neginf

/-- JavaScript division: division of a nonzero finite value by zero gives
    a signed infinity, `0 / 0` and `±Infinity / ±Infinity` give NaN. -/
def jdiv : JNum → JNum → JNum
  | .nan, _ => .nan
  | _, .nan => .nan
  | .inf, .inf => .nan
  | .inf, .neginf => .nan
  | .neginf, .inf => .nan
  | .neginf, .neginf => .nan
  | .inf, .num b => if 0 ≤ b then .inf else .neginf
  | .neginf, .num b => if 0 ≤ b then .neginf else .inf
  | .num _, .inf => .num 0
  | .num _, .neginf => .num 0
  | .num a, .num b =>
    if b = 0 then (if 0 < a then .inf else if a < 0 then .neginf else .nan)
    else .num (a / b)

/-- JavaScript multiplication: `0 × ±Infinity` is NaN, NaN is absorbing. -/
def jmul : JNum → JNum → JNum
  | .nan, _ => .nan
  | _, .nan => .nan
  | .inf, .inf => .inf
  | .inf, .neginf => .neginf
  | .neginf, .inf => .neginf
  | .neginf, .neginf => .inf
  | .inf, .num b => if 0 < b then .inf else if b < 0 then .neginf else .nan
  | .num a, .inf => if 0 < a then .inf else if a < 0 then .neginf else .nan
  | .neginf, .num b => if 0 < b then .neginf else if b < 0 then .inf else .nan
  | .num a, .neginf => if 0 < a then .neginf else if a < 0 then .inf else .nan
  | .num a, .num b => .num (a * b)

/-- JavaScript `isFinite` on a number. -/
def jIsFinite : JNum → Bool
  | .num _ => true
  | _ => false

/-- The rational value of a finite `JNum` (junk value 0 on the non-finite
    constructors; only used under a finiteness hypothesis). -/
def jToQ : JNum → ℚ
  | .num q => q
  | _ => 0

/-- Maximum of a list of rationals (junk value 0 on the empty list; the
    code only takes maxima of non-empty metric arrays). -/
def qMaxList : List ℚ → ℚ
  | [] => 0
  | a :: t => t.foldl max a

/-- One entry of a run's `training_metrics` array. -/
structure TrainingMetric where
  step : Int
  loss : JNum
  learning_rate : JNum
  inf_nan_count : Int
deriving DecidableEq

/-- One entry of a run's `evaluation_results` array. -/
structure EvalResult where
  step : Int
  paloma : JNum
deriving DecidableEq

/-- A scalar configuration value (JSON number or string). -/
inductive ConfigVal where
  | str : String → ConfigVal
  | qnum : ℚ → ConfigVal
deriving DecidableEq

/-- A run's `config` object: an ordered key/value mapping. -/
abbrev Config := List (String × ConfigVal)

/-- A run object of `data.json` (before or after merging).  Fields that
    can be absent (`undefined`) in the JavaScript objects are `Option`s. -/
structure Run where
  run_name : String
  log_file : Option String
  log_files : Option (List (Option String))
  training_metrics : Option (List TrainingMetric)
  evaluation_results : Option (List EvalResult)
  config : Option Config
deriving DecidableEq

/-- A run with no data, used only as the default of `List.headD` when
    stating facts about singleton result lists. -/
def emptyRun : Run :=
  { run_name := ""
    log_file := none
    log_files := none
    training_metrics := none
    evaluation_results := none
    config := none }

/-- The `training_metrics` array of a run, reading `undefined` as empty
    (every access in the JavaScript code is guarded by a truthiness
    check, so an absent array always behaves as the empty array). -/
def tmOf (r : Run) : List TrainingMetric := r.training_metrics.getD []

/-- The `evaluation_results` array of a run, reading `undefined` as empty. -/
def erOf (r : Run) : List EvalResult := r.evaluation_results.getD []

/-- Insert `a` into `l` before the first element whose key is ≥ the key
    of `a` (stable insertion). -/
def insertByKey (key : α → Int) (a : α) : List α → List α
  | [] => [a]
  | b :: t => if key a ≤ key b then a :: b :: t else b :: insertByKey key a t

/-- Stable sort by an integer key: models
    `.sort((a, b) => a.step - b.step)` (code.js lines 85-86). -/
def sortByKey (key : α → Int) : List α → List α
  | [] => []
  | a :: t => insertByKey key a (sortByKey key t)

/-- Tail of the duplicate-step filter: `prev` is the element at the
    previous index of the input array; an element is kept iff its key
    differs from the key of the immediately preceding input element. -/
def dedupGo (key : α → Int) : α → List α → List α
  | _, [] => []
  | prev, b :: t =>
    if key b = key prev then dedupGo key b t else b :: dedupGo key b t

/-- Models `.filter((m, i, self) => i === 0 || m.step !== self[i-1].step)`
    (code.js lines 89-94): keep an element iff it is first or its step
    differs from the step of the element at the previous input index. -/
def dedupByKey (key : α → Int) : List α → List α
  | [] => []
  | a :: t => a :: dedupGo key a t

/-- Concatenation of one per-run array over a group, in group order:
    models `runs.forEach(run => merged.xs.push(...run.xs))`. -/
def concatBy (f : Run → List β) (runs : List Run) : List β :=
  runs.foldl (fun acc r => acc ++ f r) []

/-- One step of grouping by `run_name`: append the run to its group if the
    name was seen, otherwise add a new group at the end (JavaScript object
    property creation preserves string-key insertion order). -/
def groupStep (acc : List (String × List Run)) (r : Run) :
    List (String × List Run) :=
  if acc.any (fun p => decide (p.1 = r.run_name)) then
    acc.map (fun p => if p.1 = r.run_name then (p.1, p.2 ++ [r]) else p)
  else
    acc ++ [(r.run_name, [r])]

/-- Group runs by `run_name` (code.js lines 43-49): first-seen key order,
    per-key insertion order. -/
def groupByName (runs : List Run) : List (String × List Run) :=
  runs.foldl groupStep []

/-- Merge one group of same-name runs (code.js lines 62-97): concatenate
    the metric arrays in group order, stable-sort by step, drop entries
    whose step equals the step at the previous index; `config` is
    `runs[0].config || {}` and `log_files` collects the per-file names. -/
def mergeRuns (baseName : String) (runs : List Run) : Run :=
  { run_name := baseName
    log_file := none
    log_files := some (runs.map (fun r => r.log_file))
    training_metrics := some (dedupByKey (fun m => m.step)
      (sortByKey (fun m => m.step) (concatBy tmOf runs)))
    evaluation_results := some (dedupByKey (fun m => m.step)
      (sortByKey (fun m => m.step) (concatBy erOf runs)))
    config := some (match runs with
      | [] => []
      | r :: _ => r.config.getD []) }

/-- `mergeContinuationLogs` (code.js lines 39-102): groups of size one are
    pushed through unchanged, larger groups are merged. -/
def mergeContinuationLogs (runs : List Run) : List Run :=
  (groupByName runs).map (fun p =>
    match p with
    | (_, [r]) => r
    | (name, rs) => mergeRuns name rs)

/-- One chart dataset, restricted to its data content: the label and the
    (x, y) points.  The styling attributes of the JavaScript dataset
    objects (colors, border width, fill, tension) are constants carrying
    no chart data and are not modelled. -/
structure Dataset where
  label : String
  data : List (Int × JNum)
deriving DecidableEq

/-- `getChartData(metricType)` (code.js lines 312-370) over the selected
    runs: one dataset per run whose backing array is non-empty. -/
def getChartData (metricType : String) (runs : List Run) : List Dataset :=
  runs.foldl (fun acc run =>
    if metricType = "loss" then
      match run.training_metrics with
      | some l =>
        if 0 < l.length then
          acc ++ [{ label := run.run_name
                    data := l.map (fun m => (m.step, m.loss)) }]
        else acc
      | none => acc
    else if metricType = "lr" then
      match run.training_metrics with
      | some l =>
        if 0 < l.length then
          acc ++ [{ label := run.run_name
                    data := l.map (fun m => (m.step, m.learning_rate)) }]
        else acc
      | none => acc
    else if metricType = "eval" then
      match run.evaluation_results with
      | some l =>
        if 0 < l.length then
          acc ++ [{ label := run.run_name
                    data := l.map (fun m => (m.step, m.paloma)) }]
        else acc
      | none => acc
    else acc) []

/-- The datasets `getCombinedChartData` pushes for one run (code.js lines
    379-411): the loss series, then — whenever `training_metrics` is
    non-empty, with no further condition — the scaled learning-rate series
    with scale factor `Math.max(...loss) / Math.max(...learning_rate)`. -/
def combinedDatasetsForRun (run : Run) : List Dataset :=
  (match run.training_metrics with
   | some l =>
     if 0 < l.length then
       [{ label := run.run_name ++ " - Loss"
          data := l.map (fun m => (m.step, m.loss)) }]
     else []
   | none => []) ++
  (match run.training_metrics with
   | some l =>
     if 0 < l.length then
       [{ label := run.run_name ++ " - LR (scaled)"
          data := l.map (fun m => (m.step,
            jmul m.learning_rate
              (jdiv (jmaxList (l.map (fun mm => mm.loss)))
                    (jmaxList (l.map (fun mm => mm.learning_rate)))))) }]
     else []
   | none => [])

/-- `getCombinedChartData` (code.js lines 373-414) over the selected runs. -/
def getCombinedChartData (runs : List Run) : List Dataset :=
  runs.foldl (fun acc run => acc ++ combinedDatasetsForRun run) []

/-- How a run-summary value is rendered (code.js lines 451-471).  Numeric
    formatting is kept symbolic: `fixed4 x` stands for `x.toFixed(4)`,
    `expo2 x` for `x.toExponential(2)`, and `infinitySymbol` for the
    literal string '∞'; no claim depends on the digit strings themselves,
    only on which branch is rendered and which value it carries. -/
inductive DisplayVal where
  | na
  | fixed4 (x : JNum)
  | expo2 (x : JNum)
  | infinitySymbol
deriving DecidableEq

/-- The rendered step range: 'N/A' or `first → last`. -/
inductive StepRangeVal where
  | na
  | range (first last : Int)
deriving DecidableEq

/-- The per-run content of one card of `updateRunSummary`. -/
structure RunSummary where
  trainingPoints : Nat
  evalPoints : Nat
  stepRange : StepRangeVal
  finalLoss : DisplayVal
  finalLR : DisplayVal
  finalPaloma : DisplayVal
deriving DecidableEq

/-- One run's summary card (code.js lines 447-471): counts fall back to 0
    and display values to 'N/A' when the backing array is absent or
    empty; the final Paloma value renders as '∞' when not finite. -/
def summarizeRun (run : Run) : RunSummary :=
  { trainingPoints := match run.training_metrics with
      | some l => l.length
      | none => 0
    evalPoints := match run.evaluation_results with
      | some l => l.length
      | none => 0
    stepRange := match run.training_metrics with
      | some (a :: t) => .range a.step ((a :: t).getLastD a).step
      | _ => .na
    finalLoss := match run.training_metrics with
      | some (a :: t) => .fixed4 ((a :: t).getLastD a).loss
      | _ => .na
    finalLR := match run.training_metrics with
      | some (a :: t) => .expo2 ((a :: t).getLastD a).learning_rate
      | _ => .na
    finalPaloma := match run.evaluation_results with
      | some (a :: t) =>
        if jIsFinite ((a :: t).getLastD a).paloma then
          .expo2 ((a :: t).getLastD a).paloma
        else .infinitySymbol
      | _ => .na }

/-! Concrete runs used to evaluate the definitions on closed inputs. -/

/-- Two files of one run sharing step 500, first file first in discovery
    order (its sample carries loss 1, the later file's carries loss 2). -/
def c1fileA : Run :=
  { run_name := "m", log_file := some "a.log", log_files := none
    training_metrics := some [⟨500, .num 1, .num 0, 0⟩]
    evaluation_results := some [], config := some [] }

def c1fileB : Run :=
  { run_name := "m", log_file := some "b.log", log_files := none
    training_metrics := some [⟨500, .num 2, .num 0, 0⟩, ⟨600, .num 3, .num 0, 0⟩]
    evaluation_results := some [], config := some [] }

/-- A single-file run whose training metrics are out of order by step. -/
def c2runUnsorted : Run :=
  { run_name := "u", log_file := some "u.log", log_files := none
    training_metrics := some [⟨2, .num 5, .num 0, 0⟩, ⟨1, .num 6, .num 0, 0⟩]
    evaluation_results := some [], config := some [] }

/-- A single-file run with strictly increasing steps. -/
def c2runSorted : Run :=
  { run_name := "s", log_file := some "s.log", log_files := none
    training_metrics := some [⟨0, .num 9, .num 0, 0⟩, ⟨5, .num 8, .num 0, 0⟩]
    evaluation_results := some [⟨5, .num 7⟩], config := some [] }

/-- A run whose learning rate is 0 at every step while losses are positive. -/
def c3zeroRun : Run :=
  { run_name := "z", log_file := some "z.log", log_files := none
    training_metrics := some [⟨0, .num 2, .num 0, 0⟩]
    evaluation_results := some [], config := some [] }

/-- Same shape as `c3zeroRun`, used for the amended statement. -/
def c3wRun : Run :=
  { run_name := "zz", log_file := some "zz.log", log_files := none
    training_metrics := some [⟨0, .num 3, .num 0, 0⟩, ⟨1, .num 4, .num 0, 0⟩]
    evaluation_results := some [], config := some [] }

/-- A run with finite metrics and positive maximal learning rate. -/
def c4wList : List TrainingMetric :=
  [⟨0, .num 4, .num 2, 0⟩, ⟨1, .num 3, .num 1, 0⟩]

/-- A file whose metrics repeat step 3 internally. -/
def c5dupA : Run :=
  { run_name := "m5", log_file := some "a5.log", log_files := none
    training_metrics := some [⟨3, .num 1, .num 0, 0⟩, ⟨3, .num 2, .num 0, 0⟩]
    evaluation_results := some [], config := some [] }

def c5dupB : Run :=
  { run_name := "m5", log_file := some "b5.log", log_files := none
    training_metrics := some [⟨5, .num 1, .num 0, 0⟩]
    evaluation_results := some [], config := some [] }

/-- Two files of one run with pairwise distinct steps. -/
def c5wA : Run :=
  { run_name := "w5", log_file := some "wa.log", log_files := none
    training_metrics := some [⟨0, .num 9, .num 0, 0⟩, ⟨500, .num 8, .num 0, 0⟩]
    evaluation_results := some [], config := some [] }

def c5wB : Run :=
  { run_name := "w5", log_file := some "wb.log", log_files := none
    training_metrics := some [⟨600, .num 7, .num 0, 0⟩]
    evaluation_results := some [], config := some [] }

/-- First file of a group with an empty (but present) config object. -/
def c6first : Run :=
  { run_name := "c6", log_file := some "c6a.log", log_files := none
    training_metrics := some [], evaluation_results := some []
    config := some [] }

/-- Later file of the same group with a non-empty config. -/
def c6second : Run :=
  { run_name := "c6", log_file := some "c6b.log", log_files := none
    training_metrics := some [], evaluation_results := some []
    config := some [("lr", .str "3e-4")] }

def c6wA : Run :=
  { run_name := "c6w", log_file := some "c6wa.log", log_files := none
    training_metrics := some [], evaluation_results := some []
    config := some [("d_model", .qnum 96)] }

def c6wB : Run :=
  { run_name := "c6w", log_file := some "c6wb.log", log_files := none
    training_metrics := some [], evaluation_results := some []
    config := some [("d_model", .qnum 128)] }

/-- A run whose name is unique in the input list. -/
def c7only : Run :=
  { run_name := "solo", log_file := some "solo.log", log_files := none
    training_metrics := some [⟨0, .num 1, .num 0, 0⟩]
    evaluation_results := some [], config := some [("vocab_size", .qnum 50304)] }

def c7other : Run :=
  { run_name := "dup", log_file := some "dup.log", log_files := none
    training_metrics := some [], evaluation_results := some []
    config := some [] }

/-- A run whose last evaluation value is Infinity. -/
def c8run : Run :=
  { run_name := "p", log_file := some "p.log", log_files := none
    training_metrics := some [⟨0, .num 10, .num 0, 0⟩]
    evaluation_results := some [⟨1000, .inf⟩], config := some [] }

/-- A run with missing training metrics and an empty evaluation array. -/
def c9run : Run :=
  { run_name := "e", log_file := some "e.log", log_files := none
    training_metrics := none, evaluation_results := some []
    config := some [] }

def c10a : Run :=
  { run_name := "m10", log_file := some "a10.log", log_files := none
    training_metrics := some [⟨0, .num 2, .num 0, 0⟩, ⟨500, .num 1, .num 0, 0⟩]
    evaluation_results := some [], config := some [] }

def c10b : Run :=
  { run_name := "m10", log_file := some "b10.log", log_files := none
    training_metrics := some [⟨500, .num 3, .num 0, 0⟩, ⟨1000, .num 1, .num 0, 0⟩]
    evaluation_results := some [], config := some [] }

/-! Lemmas about the stable sort. -/

theorem perm_insertByKey (key : α → Int) (a : α) (l : List α) :
    (insertByKey key a l).Perm (a :: l) := by
  induction l with
  | nil => simp [insertByKey]
  | cons b t ih =>
    simp only [insertByKey]
    by_cases h : key a ≤ key b
    · rw [if_pos h]
    · rw [if_neg h]
      exact (List.Perm.cons b ih).trans (List.Perm.swap a b t)

theorem perm_sortByKey (key : α → Int) (l : List α) :
    (sortByKey key l).Perm l := by
  induction l with
  | nil => simp [sortByKey]
  | cons a t ih =>
    exact (perm_insertByKey key a (sortByKey key t)).trans (List.Perm.cons a ih)

theorem pairwise_insertByKey (key : α → Int) (a : α) (l : List α)
    (h : l.Pairwise (fun x y => key x ≤ key y)) :
    (insertByKey key a l).Pairwise (fun x y => key x ≤ key y) := by
  induction l with
  | nil => simp [insertByKey]
  | cons b t ih =>
    rw [List.pairwise_cons] at h
    obtain ⟨hb, ht⟩ := h
    simp only [insertByKey]
    by_cases hab : key a ≤ key b
    · rw [if_pos hab, List.pairwise_cons]
      refine ⟨?_, List.pairwise_cons.mpr ⟨hb, ht⟩⟩
      intro y hy
      rcases List.mem_cons.mp hy with rfl | hyt
      · exact hab
      · exact le_trans hab (hb y hyt)
    · rw [if_neg hab, List.pairwise_cons]
      refine ⟨?_, ih ht⟩
      intro y hy
      rcases List.mem_cons.mp ((perm_insertByKey key a t).mem_iff.mp hy) with rfl | hyt
      · exact le_of_lt (lt_of_not_le hab)
      · exact hb y hyt

theorem pairwise_sortByKey (key : α → Int) (l : List α) :
    (sortByKey key l).Pairwise (fun x y => key x ≤ key y) := by
  induction l with
  | nil => simp [sortByKey]
  | cons a t ih => exact pairwise_insertByKey key a _ ih

theorem filter_insertByKey (key : α → Int) (s : Int) (a : α) (l : List α) :
    (insertByKey key a l).filter (fun x => decide (key x = s)) =
      if key a = s then a :: l.filter (fun x => decide (key x = s))
      else l.filter (fun x => decide (key x = s)) := by
  induction l with
  | nil => by_cases h : key a = s <;> simp [insertByKey, h]
  | cons b t ih =>
    simp only [insertByKey]
    by_cases hab : key a ≤ key b
    · rw [if_pos hab]
      by_cases ha : key a = s <;> simp [List.filter_cons, ha]
    · rw [if_neg hab]
      by_cases hb : key b = s
      · have ha : ¬ key a = s := by
          intro h
          exact hab (le_of_eq (h.trans hb.symm))
        simp [List.filter_cons, hb, ha, ih]
      · simp [List.filter_cons, hb, ih]

theorem filter_sortByKey (key : α → Int) (s : Int) (l : List α) :
    (sortByKey key l).filter (fun x => decide (key x = s)) =
      l.filter (fun x => decide (key x = s)) := by
  induction l with
  | nil => rfl
  | cons a t ih =>
    simp only [sortByKey]
    rw [filter_insertByKey]
    by_cases h : key a = s <;> simp [List.filter_cons, h, ih]

/-! Lemmas about the duplicate-step filter. -/

theorem dedupGo_sublist (key : α → Int) (prev : α) (l : List α) :
    (dedupGo key prev l).Sublist l := by
  induction l generalizing prev with
  | nil => simp [dedupGo]
  | cons b t ih =>
    simp only [dedupGo]
    by_cases h : key b = key prev
    · rw [if_pos h]
      exact (ih b).cons b
    · rw [if_neg h]
      exact (ih b).cons₂ b

theorem dedupByKey_sublist (key : α → Int) (l : List α) :
    (dedupByKey key l).Sublist l := by
  cases l with
  | nil => simp [dedupByKey]
  | cons a t =>
    simpa [dedupByKey] using (dedupGo_sublist key a t).cons₂ a

theorem dedupGo_keys (key : α → Int) (prev : α) (l : List α) (s : Int)
    (hs : s ∈ l.map key) :
    s = key prev ∨ s ∈ (dedupGo key prev l).map key := by
  induction l generalizing prev with
  | nil => simp at hs
  | cons b t ih =>
    simp only [List.map_cons, List.mem_cons] at hs
    simp only [dedupGo]
    by_cases h : key b = key prev
    · rw [if_pos h]
      rcases hs with rfl | hst
      · exact Or.inl h
      · rcases ih b hst with heq | hmem
        · exact Or.inl (heq.trans h)
        · exact Or.inr hmem
    · rw [if_neg h]
      rcases hs with rfl | hst
      · exact Or.inr (by simp)
      · rcases ih b hst with heq | hmem
        · exact Or.inr (by simp [heq])
        · exact Or.inr (by simp only [List.map_cons, List.mem_cons]; exact Or.inr hmem)

theorem dedupByKey_keys (key : α → Int) (l : List α) (s : Int)
    (hs : s ∈ l.map key) :
    s ∈ (dedupByKey key l).map key := by
  cases l with
  | nil => simp at hs
  | cons a t =>
    simp only [List.map_cons, List.mem_cons] at hs
    simp only [dedupByKey, List.map_cons, List.mem_cons]
    rcases hs with rfl | hst
    · exact Or.inl rfl
    · rcases dedupGo_keys key a t s hst with heq | hmem
      · exact Or.inl heq
      · exact Or.inr hmem

theorem dedupGo_key_lt (key : α → Int) (prev : α) (l : List α)
    (h : (prev :: l).Pairwise (fun x y => key x ≤ key y)) :
    ∀ x ∈ dedupGo key prev l, key prev < key x := by
  induction l generalizing prev with
  | nil => intro x hx; simp [dedupGo] at hx
  | cons b t ih =>
    have htail : (b :: t).Pairwise (fun x y => key x ≤ key y) := h.of_cons
    rw [List.pairwise_cons] at h
    obtain ⟨hple, _⟩ := h
    simp only [dedupGo]
    by_cases heq : key b = key prev
    · rw [if_pos heq]
      intro x hx
      have hbx := ih b htail x hx
      omega
    · rw [if_neg heq]
      intro x hx
      have hle : key prev ≤ key b := hple b (by simp)
      rcases List.mem_cons.mp hx with rfl | hxt
      · omega
      · have hbx := ih b htail x hxt
        omega

theorem dedupGo_pairwise_lt (key : α → Int) (prev : α) (l : List α)
    (h : (prev :: l).Pairwise (fun x y => key x ≤ key y)) :
    (dedupGo key prev l).Pairwise (fun x y => key x < key y) := by
  induction l generalizing prev with
  | nil => simp [dedupGo]
  | cons b t ih =>
    have htail : (b :: t).Pairwise (fun x y => key x ≤ key y) := h.of_cons
    simp only [dedupGo]
    by_cases heq : key b = key prev
    · rw [if_pos heq]
      exact ih b htail
    · rw [if_neg heq]
      rw [List.pairwise_cons]
      exact ⟨dedupGo_key_lt key b t htail, ih b htail⟩

theorem dedupByKey_pairwise_lt (key : α → Int) (l : List α)
    (h : l.Pairwise (fun x y => key x ≤ key y)) :
    (dedupByKey key l).Pairwise (fun x y => key x < key y) := by
  cases l with
  | nil => simp [dedupByKey]
  | cons a t =>
    simp only [dedupByKey]
    rw [List.pairwise_cons]
    exact ⟨dedupGo_key_lt key a t h, dedupGo_pairwise_lt key a t h⟩

theorem dedupGo_filter_self (key : α → Int) (prev : α) (l : List α)
    (h : (prev :: l).Pairwise (fun x y => key x ≤ key y)) :
    (dedupGo key prev l).filter (fun x => decide (key x = key prev)) = [] := by
  apply List.filter_eq_nil_iff.mpr
  intro x hx
  have hlt := dedupGo_key_lt key prev l h x hx
  simp only [decide_eq_true_eq]
  omega

theorem dedupGo_filter_ne (key : α → Int) (prev : α) (l : List α) (s : Int)
    (h : (prev :: l).Pairwise (fun x y => key x ≤ key y))
    (hprev : key prev ≠ s) :
    (dedupGo key prev l).filter (fun x => decide (key x = s)) =
      (l.filter (fun x => decide (key x = s))).take 1 := by
  induction l generalizing prev with
  | nil => rfl
  | cons b t ih =>
    have htail : (b :: t).Pairwise (fun x y => key x ≤ key y) := h.of_cons
    simp only [dedupGo]
    by_cases heq : key b = key prev
    · rw [if_pos heq]
      have hb : key b ≠ s := by rw [heq]; exact hprev
      rw [ih b htail hb]
      simp [List.filter_cons, hb]
    · rw [if_neg heq]
      by_cases hbs : key b = s
      · subst hbs
        have hnil := dedupGo_filter_self key b t htail
        simp [List.filter_cons, hnil]
      · simp only [List.filter_cons, decide_eq_true_eq, hbs, if_false]
        exact ih b htail hbs

theorem dedupByKey_filter (key : α → Int) (l : List α) (s : Int)
    (h : l.Pairwise (fun x y => key x ≤ key y)) :
    (dedupByKey key l).filter (fun x => decide (key x = s)) =
      (l.filter (fun x => decide (key x = s))).take 1 := by
  cases l with
  | nil => rfl
  | cons a t =>
    simp only [dedupByKey]
    by_cases has : key a = s
    · subst has
      have hnil := dedupGo_filter_self key a t h
      simp [List.filter_cons, hnil]
    · simp only [List.filter_cons, decide_eq_true_eq, has, if_false]
      exact dedupGo_filter_ne key a t s h has

theorem dedupGo_of_nodup_keys (key : α → Int) (prev : α) (l : List α)
    (h : ((prev :: l).map key).Nodup) : dedupGo key prev l = l := by
  induction l generalizing prev with
  | nil => rfl
  | cons b t ih =>
    simp only [List.map_cons, List.nodup_cons, List.mem_cons] at h
    obtain ⟨hprev, hb, ht⟩ := h
    have hne : key b ≠ key prev := fun hh => hprev (Or.inl hh.symm)
    simp only [dedupGo, if_neg hne]
    congr 1
    apply ih b
    simp only [List.map_cons, List.nodup_cons]
    exact ⟨hb, ht⟩

theorem dedupByKey_of_nodup_keys (key : α → Int) (l : List α)
    (h : (l.map key).Nodup) : dedupByKey key l = l := by
  cases l with
  | nil => rfl
  | cons a t =>
    simp only [dedupByKey]
    congr 1
    exact dedupGo_of_nodup_keys key a t h

/-! Lemmas about group-order concatenation. -/

theorem foldl_append_eq (f : Run → List β) :
    ∀ (rs : List Run) (init : List β),
      rs.foldl (fun acc r => acc ++ f r) init =
        init ++ rs.foldl (fun acc r => acc ++ f r) [] := by
  intro rs
  induction rs with
  | nil => intro init; simp
  | cons r t ih =>
    intro init
    simp only [List.foldl_cons]
    rw [ih (init ++ f r), ih (List.nil ++ f r)]
    simp

theorem concatBy_cons (f : Run → List β) (r : Run) (rs : List Run) :
    concatBy f (r :: rs) = f r ++ concatBy f rs := by
  simp only [concatBy, List.foldl_cons]
  rw [foldl_append_eq]
  simp

theorem mem_concatBy (f : Run → List β) (rs : List Run) (m : β) :
    m ∈ concatBy f rs ↔ ∃ r ∈ rs, m ∈ f r := by
  induction rs with
  | nil => simp [concatBy]
  | cons r t ih =>
    rw [concatBy_cons]
    simp only [List.mem_append, List.mem_cons, ih]
    constructor
    · rintro (hm | ⟨r', hr', hm⟩)
      · exact ⟨r, Or.inl rfl, hm⟩
      · exact ⟨r', Or.inr hr', hm⟩
    · rintro ⟨r', hr' | hr', hm⟩
      · subst hr'; exact Or.inl hm
      · exact Or.inr ⟨r', hr', hm⟩

/-! Lemmas about grouping by run name. -/

theorem groupStep_preserves (processed : List Run)
    (acc : List (String × List Run)) (r : Run)
    (hnd : (acc.map (fun p => p.1)).Nodup)
    (hkeys : ∀ x ∈ processed, ∃ p ∈ acc, p.1 = x.run_name)
    (hsnd : ∀ p ∈ acc,
      p.2 = processed.filter (fun x => decide (x.run_name = p.1))) :
    ((groupStep acc r).map (fun p => p.1)).Nodup ∧
    (∀ x ∈ processed ++ [r], ∃ p ∈ groupStep acc r, p.1 = x.run_name) ∧
    (∀ p ∈ groupStep acc r,
      p.2 = (processed ++ [r]).filter (fun x => decide (x.run_name = p.1))) := by
  simp only [groupStep]
  by_cases hany : acc.any (fun p => decide (p.1 = r.run_name)) = true
  · rw [if_pos hany]
    have hkeyeq :
        ((acc.map (fun p =>
          if p.1 = r.run_name then (p.1, p.2 ++ [r]) else p)).map (fun p => p.1)) =
          acc.map (fun p => p.1) := by
      rw [List.map_map]
      apply List.map_congr_left
      intro p _
      by_cases hp : p.1 = r.run_name <;> simp [hp]
    refine ⟨by rw [hkeyeq]; exact hnd, ?_, ?_⟩
    · intro x hx
      rcases List.mem_append.mp hx with hx | hx
      · obtain ⟨p, hp, hpeq⟩ := hkeys x hx
        by_cases hp1 : p.1 = r.run_name
        · exact ⟨(p.1, p.2 ++ [r]),
            List.mem_map.mpr ⟨p, hp, by rw [if_pos hp1]⟩, hpeq⟩
        · exact ⟨p, List.mem_map.mpr ⟨p, hp, by rw [if_neg hp1]⟩, hpeq⟩
      · have hx' : x = r := List.mem_singleton.mp hx
        obtain ⟨p, hp, hpeq⟩ := List.any_eq_true.mp hany
        have hp1 : p.1 = r.run_name := of_decide_eq_true hpeq
        refine ⟨(p.1, p.2 ++ [r]),
          List.mem_map.mpr ⟨p, hp, by rw [if_pos hp1]⟩, ?_⟩
        rw [hx']
        exact hp1
    · intro p' hp'
      obtain ⟨p, hp, rfl⟩ := List.mem_map.mp hp'
      by_cases hp1 : p.1 = r.run_name
      · rw [if_pos hp1]
        simp only [List.filter_append]
        rw [← hsnd p hp]
        have hone : ([r].filter (fun x => decide (x.run_name = p.1))) = [r] := by
          simp [List.filter_cons, hp1.symm]
        rw [hone]
      · rw [if_neg hp1]
        rw [hsnd p hp]
        simp only [List.filter_append]
        have hnil : ([r].filter (fun x => decide (x.run_name = p.1))) = [] := by
          simp [List.filter_cons]
          exact fun h => hp1 h.symm
        rw [hnil, List.append_nil]
  · rw [if_neg hany]
    have hnotin : ∀ p ∈ acc, p.1 ≠ r.run_name := by
      intro p hp hpe
      exact hany (List.any_eq_true.mpr ⟨p, hp, decide_eq_true hpe⟩)
    refine ⟨?_, ?_, ?_⟩
    · rw [List.map_append, List.nodup_append]
      refine ⟨hnd, by simp, ?_⟩
      intro a ha hb
      simp only [List.map_cons, List.map_nil, List.mem_singleton] at hb
      obtain ⟨p, hp, rfl⟩ := List.mem_map.mp ha
      exact hnotin p hp hb
    · intro x hx
      rcases List.mem_append.mp hx with hx | hx
      · obtain ⟨p, hp, hpeq⟩ := hkeys x hx
        exact ⟨p, List.mem_append.mpr (Or.inl hp), hpeq⟩
      · have hx' : x = r := List.mem_singleton.mp hx
        refine ⟨(r.run_name, [r]), List.mem_append.mpr (Or.inr (by simp)), ?_⟩
        rw [hx']
    · intro p hp
      rcases List.mem_append.mp hp with hp | hp
      · rw [hsnd p hp]
        simp only [List.filter_append]
        have hnil : ([r].filter (fun x => decide (x.run_name = p.1))) = [] := by
          simp [List.filter_cons]
          exact fun h => hnotin p hp h.symm
        rw [hnil, List.append_nil]
      · rcases List.mem_singleton.mp hp with rfl
        simp only [List.filter_append]
        have hnil : processed.filter
            (fun x => decide (x.run_name = (r.run_name, [r]).1)) = [] := by
          apply List.filter_eq_nil_iff.mpr
          intro x hx
          obtain ⟨p, hp, hpeq⟩ := hkeys x hx
          simp only [decide_eq_true_eq]
          intro hxr
          exact hnotin p hp (hpeq.trans hxr)
        rw [hnil]
        simp [List.filter_cons]

theorem groupByName_invariant (rs : List Run) :
    ∀ (processed : List Run) (acc : List (String × List Run)),
      (acc.map (fun p => p.1)).Nodup →
      (∀ x ∈ processed, ∃ p ∈ acc, p.1 = x.run_name) →
      (∀ p ∈ acc,
        p.2 = processed.filter (fun x => decide (x.run_name = p.1))) →
      ((rs.foldl groupStep acc).map (fun p => p.1)).Nodup ∧
      (∀ x ∈ processed ++ rs, ∃ p ∈ rs.foldl groupStep acc, p.1 = x.run_name) ∧
      (∀ p ∈ rs.foldl groupStep acc,
        p.2 = (processed ++ rs).filter (fun x => decide (x.run_name = p.1))) := by
  induction rs with
  | nil =>
    intro processed acc h1 h2 h3
    simp only [List.foldl_nil, List.append_nil]
    exact ⟨h1, h2, h3⟩
  | cons r t ih =>
    intro processed acc h1 h2 h3
    obtain ⟨g1, g2, g3⟩ := groupStep_preserves processed acc r h1 h2 h3
    have hmain := ih (processed ++ [r]) (groupStep acc r) g1 g2 g3
    rw [List.append_assoc, List.singleton_append] at hmain
    simp only [List.foldl_cons]
    exact hmain

theorem groupByName_hasKey (rs : List Run) :
    ∀ x ∈ rs, ∃ p ∈ groupByName rs, p.1 = x.run_name := by
  have h := (groupByName_invariant rs [] [] (by simp) (by simp) (by simp)).2.1
  intro x hx
  exact h x (by simpa using hx)

theorem groupByName_snd (rs : List Run) :
    ∀ p ∈ groupByName rs,
      p.2 = rs.filter (fun x => decide (x.run_name = p.1)) := by
  intro p hp
  have h := (groupByName_invariant rs [] [] (by simp) (by simp) (by simp)).2.2 p hp
  rw [List.nil_append] at h
  exact h

theorem groupByName_mem (rs : List Run) :
    ∀ p ∈ groupByName rs, ∀ x ∈ p.2, x ∈ rs := by
  intro p hp x hx
  rw [groupByName_snd rs p hp] at hx
  exact (List.mem_filter.mp hx).1

/-! First-file lemma: the first element of the filtered concatenation comes
    from the first contributing run containing a matching element. -/

theorem concatBy_filter_take_one (f : Run → List β) (pm : β → Bool)
    (rs : List Run) (r0 : Run)
    (hfind : rs.find? (fun r => (f r).any pm) = some r0) :
    ((concatBy f rs).filter pm).take 1 = ((f r0).filter pm).take 1 := by
  induction rs with
  | nil => simp [List.find?_nil] at hfind
  | cons r t ih =>
    rw [concatBy_cons, List.filter_append]
    cases hr : (f r).any pm with
    | true =>
      simp only [List.find?_cons, hr] at hfind
      obtain rfl := Option.some.inj hfind
      obtain ⟨x, hx, hpx⟩ := List.any_eq_true.mp hr
      have hlen : 1 ≤ ((f r).filter pm).length := by
        cases hfl : (f r).filter pm with
        | nil =>
          rw [List.filter_eq_nil_iff] at hfl
          exact absurd hpx (by simpa using hfl x hx)
        | cons _ _ => simp
      rw [List.take_append_of_le_length hlen]
    | false =>
      simp only [List.find?_cons, hr] at hfind
      have hnil : (f r).filter pm = [] := by
        rw [List.filter_eq_nil_iff]
        intro x hx hpx
        have : (f r).any pm = true := List.any_eq_true.mpr ⟨x, hx, hpx⟩
        rw [hr] at this
        exact Bool.false_ne_true this
      rw [hnil, List.nil_append]
      exact ih hfind

/-! Lemmas about `Math.max` over lists of JavaScript numbers. -/

theorem foldl_jmax_num (qs : List ℚ) : ∀ q0 : ℚ,
    List.foldl jmax (.num q0) (qs.map JNum.num) = .num (qs.foldl max q0) := by
  induction qs with
  | nil => intro q0; rfl
  | cons a t ih =>
    intro q0
    simp only [List.map_cons, List.foldl_cons]
    exact ih (max q0 a)

theorem jmaxList_num (q0 : ℚ) (qs : List ℚ) :
    jmaxList ((q0 :: qs).map JNum.num) = .num (qs.foldl max q0) := by
  simp only [jmaxList, List.map_cons, List.foldl_cons]
  exact foldl_jmax_num qs q0

theorem eq_num_jToQ (x : JNum) (h : jIsFinite x = true) : x = .num (jToQ x) := by
  cases x with
  | num q => rfl
  | inf => simp [jIsFinite] at h
  | neginf => simp [jIsFinite] at h
  | nan => simp [jIsFinite] at h

theorem jmaxList_of_finite (xs : List JNum) (hne : xs ≠ [])
    (hfin : ∀ x ∈ xs, jIsFinite x = true) :
    jmaxList xs = .num (qMaxList (xs.map jToQ)) := by
  have hxs : (xs.map jToQ).map JNum.num = xs := by
    rw [List.map_map]
    conv_rhs => rw [← List.map_id xs]
    apply List.map_congr_left
    intro x hx
    exact (eq_num_jToQ x (hfin x hx)).symm
  cases hq : xs.map jToQ with
  | nil => exact absurd (List.map_eq_nil_iff.mp hq) hne
  | cons a t =>
    have h1 : jmaxList xs = jmaxList ((a :: t).map JNum.num) := by
      rw [← hq, hxs]
    rw [h1, jmaxList_num]
    simp [qMaxList]

theorem foldl_jmax_zero (xs : List JNum) (hz : ∀ x ∈ xs, x = .num 0) :
    List.foldl jmax (.num 0) xs = .num 0 := by
  induction xs with
  | nil => rfl
  | cons a t ih =>
    have ha := hz a (by simp)
    rw [List.foldl_cons, ha]
    have hm : jmax (.num 0) (.num 0) = .num 0 := by simp [jmax]
    rw [hm]
    exact ih (fun x hx => hz x (by simp [hx]))

theorem jmaxList_zero (x0 : JNum) (xs : List JNum)
    (hz : ∀ x ∈ x0 :: xs, x = .num 0) :
    jmaxList (x0 :: xs) = .num 0 := by
  have h0 := hz x0 (by simp)
  simp only [jmaxList, List.foldl_cons, h0]
  exact foldl_jmax_zero xs (fun x hx => hz x (by simp [hx]))

/-! Claim theorems. -/

/-- C6 counterexample: with two same-name files where the first has an
    empty (but present) config object and the second a non-empty one,
    `mergeContinuationLogs` keeps the first file's empty config, not the
    config of the first file with a non-empty mapping. -/
theorem config_empty_first_counterexample :
    c6first.config = some [] ∧
    c6second.config = some [("lr", ConfigVal.str "3e-4")] ∧
    ((mergeContinuationLogs [c6first, c6second]).headD emptyRun).config =
      some [] ∧
    some ([] : Config) ≠ some [("lr", ConfigVal.str "3e-4")] := by
  refine ⟨rfl, rfl, by decide, by decide⟩

/-- C6 amended: for a merged group of size greater than one, the merged
    run's config is the first file's config (`runs[0].config || {}`),
    with the empty mapping substituted only when the first file's config
    is absent — regardless of whether a later file has a non-empty
    config. -/
theorem merged_config_is_first_file (name : String) (r : Run)
    (rest : List Run) (_h : rest ≠ []) :
    (mergeRuns name (r :: rest)).config = some (r.config.getD []) := rfl

/-- Witness for C6 amended at a concrete two-file group. -/
theorem merged_config_is_first_file_witness :
    ([c6wB] : List Run) ≠ [] ∧
    (mergeRuns "c6w" (c6wA :: [c6wB])).config =
      some [("d_model", ConfigVal.qnum 96)] :=
  ⟨by decide, merged_config_is_first_file "c6w" c6wA [c6wB] (by decide)⟩

/-- C7: a run whose name occurs exactly once in the input list is passed
    through the merge step as the identical object (same `run_name`,
    `training_metrics`, `evaluation_results` and `config`, in the same
    order). -/
theorem singleton_group_passthrough (runs : List Run) (r : Run)
    (hr : r ∈ runs)
    (hcount : runs.countP (fun x => decide (x.run_name = r.run_name)) = 1) :
    r ∈ mergeContinuationLogs runs := by
  obtain ⟨p, hp, hpeq⟩ := groupByName_hasKey runs r hr
  have hsnd := groupByName_snd runs p hp
  rw [hpeq] at hsnd
  have hlen : (runs.filter (fun x => decide (x.run_name = r.run_name))).length = 1 := by
    rw [← List.countP_eq_length_filter]
    exact hcount
  obtain ⟨x, hx⟩ := List.length_eq_one.mp hlen
  have hrx : r ∈ runs.filter (fun x => decide (x.run_name = r.run_name)) :=
    List.mem_filter.mpr ⟨hr, by simp⟩
  rw [hx] at hrx
  have hxeq : r = x := List.mem_singleton.mp hrx
  have hp2 : p.2 = [r] := by rw [hsnd, hx, ← hxeq]
  obtain ⟨pn, pl⟩ := p
  simp only at hp2
  subst hp2
  exact List.mem_map.mpr ⟨(pn, [r]), hp, rfl⟩

/-- Witness for C7 at a concrete input with one unique-name run. -/
theorem singleton_group_passthrough_witness :
    c7only ∈ ([c7only, c7other] : List Run) ∧
    ([c7only, c7other].countP
      (fun x => decide (x.run_name = c7only.run_name))) = 1 ∧
    c7only ∈ mergeContinuationLogs [c7only, c7other] :=
  ⟨by decide, by decide,
    singleton_group_passthrough [c7only, c7other] c7only (by decide) (by decide)⟩

/-- C8: the evaluation chart series carries each run's paloma values
    unchanged (non-finite values included), and the run summary renders
    the final paloma value as the literal '∞' when it is not finite. -/
theorem nonfinite_eval_passthrough_and_infinity (run : Run)
    (a : EvalResult) (t : List EvalResult)
    (hev : run.evaluation_results = some (a :: t)) :
    getChartData "eval" [run] =
      [{ label := run.run_name
         data := (a :: t).map (fun m => (m.step, m.paloma)) }] ∧
    (jIsFinite (((a :: t).getLastD a).paloma) = false →
      (summarizeRun run).finalPaloma = .infinitySymbol) := by
  constructor
  · have h1 : ¬ (("eval" : String) = "loss") := by decide
    have h2 : ¬ (("eval" : String) = "lr") := by decide
    simp [getChartData, h1, h2, hev]
  · intro hfin
    simp only [summarizeRun, hev]
    rw [hfin]
    simp

/-- Witness for C8 at a run whose final paloma value is Infinity. -/
theorem nonfinite_eval_passthrough_and_infinity_witness :
    getChartData "eval" [c8run] =
      [{ label := "p", data := [((1000 : Int), JNum.inf)] }] ∧
    (summarizeRun c8run).finalPaloma = .infinitySymbol := by
  have h := nonfinite_eval_passthrough_and_infinity c8run ⟨1000, .inf⟩ [] rfl
  exact ⟨h.1, h.2 (by decide)⟩

/-- C9: a run with missing or empty training metrics renders 'N/A' for
    step range, final loss and final learning rate and reports 0
    training points; likewise 'N/A' and 0 for missing or empty
    evaluation results. -/
theorem summary_handles_empty_metrics (run : Run)
    (h : run.training_metrics = none ∨ run.training_metrics = some []) :
    (summarizeRun run).stepRange = .na ∧
    (summarizeRun run).finalLoss = .na ∧
    (summarizeRun run).finalLR = .na ∧
    (summarizeRun run).trainingPoints = 0 ∧
    ((run.evaluation_results = none ∨ run.evaluation_results = some []) →
      (summarizeRun run).finalPaloma = .na ∧
      (summarizeRun run).evalPoints = 0) := by
  refine ⟨?_, ?_, ?_, ?_, ?_⟩
  · rcases h with h | h <;> simp [summarizeRun, h]
  · rcases h with h | h <;> simp [summarizeRun, h]
  · rcases h with h | h <;> simp [summarizeRun, h]
  · rcases h with h | h <;> simp [summarizeRun, h]
  · rintro (h2 | h2) <;> simp [summarizeRun, h2]

/-- Witness for C9 at a run with absent training metrics and an empty
    evaluation array. -/
theorem summary_handles_empty_metrics_witness :
    (summarizeRun c9run).stepRange = .na ∧
    (summarizeRun c9run).finalLoss = .na ∧
    (summarizeRun c9run).finalLR = .na ∧
    (summarizeRun c9run).trainingPoints = 0 ∧
    (summarizeRun c9run).finalPaloma = .na ∧
    (summarizeRun c9run).evalPoints = 0 := by
  have h := summary_handles_empty_metrics c9run (Or.inl rfl)
  have h5 := h.2.2.2.2 (Or.inr rfl)
  exact ⟨h.1, h.2.1, h.2.2.1, h.2.2.2.1, h5.1, h5.2⟩

/-- C3 counterexample: for a run whose learning rates are all 0 (so
    `Math.max(...learning_rate)` is 0), `getCombinedChartData` still
    pushes the scaled learning-rate series (with NaN values) instead of
    omitting it. -/
theorem scaled_series_not_omitted_counterexample :
    jmaxList ((tmOf c3zeroRun).map (fun m => m.learning_rate)) = JNum.num 0 ∧
    combinedDatasetsForRun c3zeroRun =
      [{ label := "z - Loss", data := [((0 : Int), JNum.num 2)] },
       { label := "z - LR (scaled)", data := [((0 : Int), JNum.nan)] }] := by
  refine ⟨by decide, by decide⟩

/-- C3 amended: for a run with non-empty training metrics whose learning
    rates are all 0 and whose maximal loss is positive, the combined view
    emits the loss series and still emits the scaled learning-rate series
    (it is not omitted); the scale factor is the division-by-zero value
    Infinity and every scaled y-value is NaN (0 × Infinity). -/
theorem scaled_series_nan_when_zero_lr (name : String)
    (l : List TrainingMetric) (hne : l ≠ [])
    (hzero : ∀ m ∈ l, m.learning_rate = JNum.num 0)
    (q : ℚ) (hmax : jmaxList (l.map (fun mm => mm.loss)) = JNum.num q)
    (hq : 0 < q) :
    combinedDatasetsForRun
      { run_name := name, log_file := none, log_files := none
        training_metrics := some l, evaluation_results := none
        config := none } =
      [{ label := name ++ " - Loss"
         data := l.map (fun m => (m.step, m.loss)) },
       { label := name ++ " - LR (scaled)"
         data := l.map (fun m => (m.step, JNum.nan)) }] := by
  cases l with
  | nil => exact absurd rfl hne
  | cons m0 t =>
    have hmaxlr :
        jmaxList ((m0 :: t).map (fun mm => mm.learning_rate)) = JNum.num 0 := by
      rw [List.map_cons]
      apply jmaxList_zero
      intro x hx
      rw [← List.map_cons] at hx
      obtain ⟨m, hm, rfl⟩ := List.mem_map.mp hx
      exact hzero m hm
    have hsf : jdiv (JNum.num q) (JNum.num 0) = JNum.inf := by
      simp [jdiv, hq]
    simp only [combinedDatasetsForRun]
    simp only [List.length_cons, Nat.succ_pos, if_true]
    rw [hmax, hmaxlr, hsf]
    have hdata :
        List.map (fun m => (m.step, jmul m.learning_rate JNum.inf)) (m0 :: t) =
        List.map (fun m => (m.step, JNum.nan)) (m0 :: t) := by
      apply List.map_congr_left
      intro m hm
      rw [hzero m hm]
      simp [jmul]
    rw [hdata]
    rfl

/-- Witness for C3 amended at a concrete all-zero-learning-rate run. -/
theorem scaled_series_nan_when_zero_lr_witness :
    combinedDatasetsForRun
      { run_name := "zz", log_file := none, log_files := none
        training_metrics := some [⟨0, .num 3, .num 0, 0⟩, ⟨1, .num 4, .num 0, 0⟩]
        evaluation_results := none, config := none } =
      [{ label := "zz - Loss"
         data := [((0 : Int), JNum.num 3), ((1 : Int), JNum.num 4)] },
       { label := "zz - LR (scaled)"
         data := [((0 : Int), JNum.nan), ((1 : Int), JNum.nan)] }] := by
  have h := scaled_series_nan_when_zero_lr "zz"
    [⟨0, .num 3, .num 0, 0⟩, ⟨1, .num 4, .num 0, 0⟩]
    (by decide) (by decide) 4 (by decide) (by decide)
  exact h

/-- C4: for a run with non-empty, finite training metrics whose maximal
    learning rate is positive, the combined view emits a scaled series
    whose value at each step is learning_rate × (max(loss) /
    max(learning_rate)), the maxima taken over that run's samples. -/
theorem scaled_series_formula (name : String) (l : List TrainingMetric)
    (hne : l ≠ [])
    (hfin : ∀ m ∈ l, jIsFinite m.loss = true ∧ jIsFinite m.learning_rate = true)
    (hpos : 0 < qMaxList (l.map (fun mm => jToQ mm.learning_rate))) :
    combinedDatasetsForRun
      { run_name := name, log_file := none, log_files := none
        training_metrics := some l, evaluation_results := none
        config := none } =
      [{ label := name ++ " - Loss"
         data := l.map (fun m => (m.step, m.loss)) },
       { label := name ++ " - LR (scaled)"
         data := l.map (fun m => (m.step,
           JNum.num (jToQ m.learning_rate *
             (qMaxList (l.map (fun mm => jToQ mm.loss)) /
              qMaxList (l.map (fun mm => jToQ mm.learning_rate)))))) }] := by
  have hmLoss : jmaxList (l.map (fun mm => mm.loss)) =
      JNum.num (qMaxList (l.map (fun mm => jToQ mm.loss))) := by
    have h := jmaxList_of_finite (l.map (fun mm => mm.loss))
      (by intro hnil; exact hne (List.map_eq_nil_iff.mp hnil))
      (by intro x hx
          obtain ⟨m, hm, rfl⟩ := List.mem_map.mp hx
          exact (hfin m hm).1)
    rw [h, List.map_map]
    rfl
  have hmLR : jmaxList (l.map (fun mm => mm.learning_rate)) =
      JNum.num (qMaxList (l.map (fun mm => jToQ mm.learning_rate))) := by
    have h := jmaxList_of_finite (l.map (fun mm => mm.learning_rate))
      (by intro hnil; exact hne (List.map_eq_nil_iff.mp hnil))
      (by intro x hx
          obtain ⟨m, hm, rfl⟩ := List.mem_map.mp hx
          exact (hfin m hm).2)
    rw [h, List.map_map]
    rfl
  have hsf : jdiv (JNum.num (qMaxList (l.map (fun mm => jToQ mm.loss))))
      (JNum.num (qMaxList (l.map (fun mm => jToQ mm.learning_rate)))) =
      JNum.num (qMaxList (l.map (fun mm => jToQ mm.loss)) /
        qMaxList (l.map (fun mm => jToQ mm.learning_rate))) := by
    simp [jdiv, ne_of_gt hpos]
  cases l with
  | nil => exact absurd rfl hne
  | cons m0 t =>
    simp only [combinedDatasetsForRun]
    simp only [List.length_cons, Nat.succ_pos, if_true]
    rw [hmLoss, hmLR, hsf]
    have hdata :
        List.map (fun m => (m.step, jmul m.learning_rate
          (JNum.num (qMaxList (List.map (fun mm => jToQ mm.loss) (m0 :: t)) /
            qMaxList (List.map (fun mm => jToQ mm.learning_rate) (m0 :: t))))))
          (m0 :: t) =
        List.map (fun m => (m.step,
          JNum.num (jToQ m.learning_rate *
            (qMaxList (List.map (fun mm => jToQ mm.loss) (m0 :: t)) /
             qMaxList (List.map (fun mm => jToQ mm.learning_rate) (m0 :: t))))))
          (m0 :: t) := by
      apply List.map_congr_left
      intro m hm
      obtain ⟨b, hb⟩ : ∃ b, m.learning_rate = JNum.num b :=
        ⟨jToQ m.learning_rate, eq_num_jToQ m.learning_rate (hfin m hm).2⟩
      rw [hb]
      simp [jmul, jToQ]
    rw [hdata]
    rfl

/-- Witness for C4 at a concrete run with finite metrics. -/
theorem scaled_series_formula_witness :
    combinedDatasetsForRun
      { run_name := "w", log_file := none, log_files := none
        training_metrics := some c4wList, evaluation_results := none
        config := none } =
      [{ label := "w - Loss"
         data := [((0 : Int), JNum.num 4), ((1 : Int), JNum.num 3)] },
       { label := "w - LR (scaled)"
         data := [((0 : Int), JNum.num 4), ((1 : Int), JNum.num 2)] }] := by
  have h := scaled_series_formula "w" c4wList (by decide) (by decide)
    (by norm_num [c4wList, qMaxList, jToQ])
  rw [h]
  norm_num [c4wList, qMaxList, jToQ]
  refine ⟨rfl, rfl⟩

/-- C5 counterexample: two same-name files whose step sets are disjoint
    across the files (no shared step value) but where one file repeats a
    step internally; the merged run drops one of the repeated samples,
    so its length is not the sum of the input lengths. -/
theorem disjoint_merge_drop_counterexample :
    ((tmOf c5dupA).all
      (fun m => !((tmOf c5dupB).any (fun mm => decide (mm.step = m.step))))) = true ∧
    mergeContinuationLogs [c5dupA, c5dupB] = [mergeRuns "m5" [c5dupA, c5dupB]] ∧
    (tmOf (mergeRuns "m5" [c5dupA, c5dupB])).length = 2 ∧
    (tmOf c5dupA).length + (tmOf c5dupB).length = 3 := by
  refine ⟨by decide, by decide, by decide, by decide⟩

/-- C5 amended: for a pair of same-name runs whose combined training
    steps are pairwise distinct (disjoint across the two files and not
    repeated within a file), the merged run's training metrics equal the
    concatenation stably sorted by step, and its length is the sum of the
    two input lengths. -/
theorem disjoint_merge_concat_sorted (r1 r2 : Run)
    (hname : r1.run_name = r2.run_name)
    (hnd : ((tmOf r1 ++ tmOf r2).map (fun m => m.step)).Nodup) :
    mergeContinuationLogs [r1, r2] = [mergeRuns r1.run_name [r1, r2]] ∧
    tmOf (mergeRuns r1.run_name [r1, r2]) =
      sortByKey (fun m => m.step) (tmOf r1 ++ tmOf r2) ∧
    (tmOf (mergeRuns r1.run_name [r1, r2])).length =
      (tmOf r1).length + (tmOf r2).length := by
  have hconcat : concatBy tmOf [r1, r2] = tmOf r1 ++ tmOf r2 := by
    rw [concatBy_cons, concatBy_cons]
    simp [concatBy]
  have hsortkeys :
      ((sortByKey (fun m => m.step) (tmOf r1 ++ tmOf r2)).map
        (fun m => m.step)).Nodup := by
    have hperm :=
      (perm_sortByKey (fun m => m.step) (tmOf r1 ++ tmOf r2)).map (fun m => m.step)
    exact hperm.nodup_iff.mpr hnd
  have htm : tmOf (mergeRuns r1.run_name [r1, r2]) =
      sortByKey (fun m => m.step) (tmOf r1 ++ tmOf r2) := by
    show dedupByKey (fun m => m.step)
      (sortByKey (fun m => m.step) (concatBy tmOf [r1, r2])) = _
    rw [hconcat]
    exact dedupByKey_of_nodup_keys _ _ hsortkeys
  refine ⟨?_, htm, ?_⟩
  · have hgroups : groupByName [r1, r2] = [(r1.run_name, [r1, r2])] := by
      simp [groupByName, groupStep, hname]
    simp only [mergeContinuationLogs, hgroups, List.map_cons, List.map_nil]
  · rw [htm]
    rw [(perm_sortByKey (fun m => m.step) (tmOf r1 ++ tmOf r2)).length_eq]
    exact List.length_append _ _

/-- Witness for C5 amended at two concrete disjoint files. -/
theorem disjoint_merge_concat_sorted_witness :
    c5wA.run_name = c5wB.run_name ∧
    tmOf (mergeRuns c5wA.run_name [c5wA, c5wB]) =
      sortByKey (fun m => m.step) (tmOf c5wA ++ tmOf c5wB) ∧
    (tmOf (mergeRuns c5wA.run_name [c5wA, c5wB])).length = 3 := by
  have h := disjoint_merge_concat_sorted c5wA c5wB (by decide) (by decide)
  exact ⟨by decide, h.2.1, (h.2.2).trans (by decide)⟩

/-- C2 counterexample: a single-file group passes through
    `mergeContinuationLogs` unchanged, so a run whose training metrics
    are out of order by step is still out of order after the merge step —
    the post-merge list is not strictly increasing for all runs. -/
theorem passthrough_unsorted_counterexample :
    mergeContinuationLogs [c2runUnsorted] = [c2runUnsorted] ∧
    ¬ (tmOf c2runUnsorted).Pairwise (fun a b => a.step < b.step) := by
  refine ⟨by decide, by decide⟩

/-- C2 amended: every run produced by merging a group of size > 1 has
    strictly increasing training and evaluation steps unconditionally;
    single-file groups pass through unchanged, so the post-merge
    invariant holds for every run whenever every input run's series are
    already strictly increasing in step. -/
theorem merge_strict_increase_amended (runs : List Run)
    (h : ∀ r ∈ runs,
      (tmOf r).Pairwise (fun a b => a.step < b.step) ∧
      (erOf r).Pairwise (fun a b => a.step < b.step)) :
    ∀ r' ∈ mergeContinuationLogs runs,
      (tmOf r').Pairwise (fun a b => a.step < b.step) ∧
      (erOf r').Pairwise (fun a b => a.step < b.step) := by
  intro r' hr'
  simp only [mergeContinuationLogs] at hr'
  obtain ⟨p, hp, hfp⟩ := List.mem_map.mp hr'
  obtain ⟨pn, pl⟩ := p
  match pl, hp, hfp with
  | [], hp, hfp =>
    subst hfp
    exact ⟨List.Pairwise.nil, List.Pairwise.nil⟩
  | [x], hp, hfp =>
    subst hfp
    exact h x (groupByName_mem runs (pn, [x]) hp x (by simp))
  | x :: y :: t, hp, hfp =>
    subst hfp
    exact ⟨dedupByKey_pairwise_lt _ _ (pairwise_sortByKey _ _),
      dedupByKey_pairwise_lt _ _ (pairwise_sortByKey _ _)⟩

/-- Witness for C2 amended at a concrete sorted single-file input. -/
theorem merge_strict_increase_amended_witness :
    (tmOf c2runSorted).Pairwise (fun a b => a.step < b.step) ∧
    (erOf c2runSorted).Pairwise (fun a b => a.step < b.step) :=
  merge_strict_increase_amended [c2runSorted]
    (by intro r hr
        rw [List.mem_singleton.mp hr]
        exact ⟨by decide, by decide⟩)
    c2runSorted (by decide)

/-- C1: in a merged group where step `s` appears in more than one file,
    the merged run keeps exactly one sample with step `s`, namely the
    first occurrence in discovery order: the head of the filtered
    concatenation, which is the first matching sample of the first file
    containing step `s`. -/
theorem merge_dedup_keeps_first_occurrence (name : String) (rs : List Run)
    (s : Int)
    (hmulti : 1 < rs.countP (fun r => (tmOf r).any (fun m => decide (m.step = s)))) :
    ((tmOf (mergeRuns name rs)).filter (fun m => decide (m.step = s))).length = 1 ∧
    (tmOf (mergeRuns name rs)).filter (fun m => decide (m.step = s)) =
      ((concatBy tmOf rs).filter (fun m => decide (m.step = s))).take 1 ∧
    (∀ r0, rs.find? (fun r => (tmOf r).any (fun m => decide (m.step = s))) = some r0 →
      (tmOf (mergeRuns name rs)).filter (fun m => decide (m.step = s)) =
        ((tmOf r0).filter (fun m => decide (m.step = s))).take 1) := by
  have hmerged : (tmOf (mergeRuns name rs)).filter (fun m => decide (m.step = s)) =
      ((concatBy tmOf rs).filter (fun m => decide (m.step = s))).take 1 := by
    have h1 := dedupByKey_filter (fun m : TrainingMetric => m.step)
      (sortByKey (fun m : TrainingMetric => m.step) (concatBy tmOf rs)) s
      (pairwise_sortByKey (fun m : TrainingMetric => m.step) (concatBy tmOf rs))
    have h2 := filter_sortByKey (fun m : TrainingMetric => m.step) s (concatBy tmOf rs)
    exact h1.trans (congrArg (List.take 1) h2)
  have hnonempty :
      ((concatBy tmOf rs).filter (fun m => decide (m.step = s))) ≠ [] := by
    have h0 : 0 < rs.countP (fun r => (tmOf r).any (fun m => decide (m.step = s))) := by
      omega
    obtain ⟨r, hr, hpr⟩ := List.countP_pos_iff.mp h0
    obtain ⟨m, hm, hms⟩ := List.any_eq_true.mp hpr
    intro hnil
    rw [List.filter_eq_nil_iff] at hnil
    exact hnil m ((mem_concatBy tmOf rs m).mpr ⟨r, hr, hm⟩) hms
  refine ⟨?_, hmerged, ?_⟩
  · rw [hmerged]
    cases hfl : (concatBy tmOf rs).filter (fun m => decide (m.step = s)) with
    | nil => exact absurd hfl hnonempty
    | cons a t => simp
  · intro r0 hfind
    rw [hmerged]
    exact concatBy_filter_take_one tmOf _ rs r0 hfind

/-- Witness for C1 at two concrete files sharing step 500: the merged run
    keeps the first file's sample (loss 1), not the later file's. -/
theorem merge_dedup_keeps_first_occurrence_witness :
    1 < ([c1fileA, c1fileB].countP
      (fun r => (tmOf r).any (fun m => decide (m.step = 500)))) ∧
    ((tmOf (mergeRuns "m" [c1fileA, c1fileB])).filter
      (fun m => decide (m.step = 500))).length = 1 ∧
    (tmOf (mergeRuns "m" [c1fileA, c1fileB])).filter
      (fun m => decide (m.step = 500)) =
      ((tmOf c1fileA).filter (fun m => decide (m.step = 500))).take 1 := by
  have h := merge_dedup_keeps_first_occurrence "m" [c1fileA, c1fileB] 500 (by decide)
  exact ⟨by decide, h.1, h.2.2 c1fileA (by decide)⟩

/-- C10: for a merged group, the merged run's set of training step values
    is the union of the contributing runs' step values, and every
    retained sample is a sample of some contributing run. -/
theorem merge_step_set_union (name : String) (rs : List Run)
    (_hsize : 1 < rs.length) :
    (∀ s : Int,
      (∃ m ∈ tmOf (mergeRuns name rs), m.step = s) ↔
      (∃ r ∈ rs, ∃ m ∈ tmOf r, m.step = s)) ∧
    (∀ m ∈ tmOf (mergeRuns name rs), ∃ r ∈ rs, m ∈ tmOf r) := by
  have hperm := perm_sortByKey (fun m : TrainingMetric => m.step) (concatBy tmOf rs)
  have hmem2 : ∀ m ∈ tmOf (mergeRuns name rs), ∃ r ∈ rs, m ∈ tmOf r := by
    intro m hm
    have hm1 : m ∈ sortByKey (fun m : TrainingMetric => m.step) (concatBy tmOf rs) :=
      (dedupByKey_sublist (fun m : TrainingMetric => m.step)
        (sortByKey (fun m : TrainingMetric => m.step) (concatBy tmOf rs))).subset hm
    have hm2 : m ∈ concatBy tmOf rs := hperm.mem_iff.mp hm1
    exact (mem_concatBy tmOf rs m).mp hm2
  refine ⟨?_, hmem2⟩
  intro s
  constructor
  · rintro ⟨m, hm, rfl⟩
    obtain ⟨r, hr, hmr⟩ := hmem2 m hm
    exact ⟨r, hr, m, hmr, rfl⟩
  · rintro ⟨r, hr, m, hmr, rfl⟩
    have hc : m ∈ concatBy tmOf rs := (mem_concatBy tmOf rs m).mpr ⟨r, hr, hmr⟩
    have hs : m ∈ sortByKey (fun m : TrainingMetric => m.step) (concatBy tmOf rs) :=
      hperm.mem_iff.mpr hc
    have hkey : m.step ∈ (sortByKey (fun m : TrainingMetric => m.step)
        (concatBy tmOf rs)).map (fun m : TrainingMetric => m.step) :=
      List.mem_map.mpr ⟨m, hs, rfl⟩
    have hkey2 := dedupByKey_keys (fun m : TrainingMetric => m.step)
      (sortByKey (fun m : TrainingMetric => m.step) (concatBy tmOf rs)) m.step hkey
    obtain ⟨m', hm', hm'eq⟩ := List.mem_map.mp hkey2
    exact ⟨m', hm', hm'eq⟩

/-- Witness for C10 at two concrete files sharing step 500. -/
theorem merge_step_set_union_witness :
    1 < ([c10a, c10b] : List Run).length ∧
    ((∃ m ∈ tmOf (mergeRuns "m10" [c10a, c10b]), m.step = 500) ↔
      (∃ r ∈ ([c10a, c10b] : List Run), ∃ m ∈ tmOf r, m.step = 500)) :=
  ⟨by decide, (merge_step_set_union "m10" [c10a, c10b] (by decide)).1 500⟩

end PlotsCode
